import Mathlib

/-!
Verification of `generate_ascii.py`: an image → ASCII-art converter that
emits either plain text or SVG `tspan` markup.

The pipeline is embedded shallowly:
* the loaded image (produced externally by the PIL library) is modelled as an
  optional flat list of luminance samples (`none` = any load/decode failure);
* Python evaluates `(v / 255) * (len(chars) - 1)` in IEEE-754 binary64
  floats and truncates with `int(...)`.  The faithful model is
  `charIndexFloat` (each intermediate value rounded to 53 significant bits
  by `fl`, then truncated toward zero); `charIndex` is the exact-rational
  idealization of the same expression, kept only for the claims whose
  domain is insensitive to rounding (`v ∈ {0, 255}` exactly, and the empty
  palette, where both models agree with the program);
* Python sequence indexing `s[i]`, including negative-index wraparound and
  `IndexError`, is modelled by an `Option`-valued lookup;
* rows are `List Char`; the process outcome (exit code, stdout, stderr) is a
  `ProcResult` record.
-/

namespace GenerateAscii

/-- Python `int(q)` on an exact rational value: truncation toward zero. -/
def pyTrunc (q : ℚ) : ℤ :=
  if 0 ≤ q then ⌊q⌋ else -⌊-q⌋

/-- `char_index = int((pixel_value / 255) * (len(chars) - 1))`
(source line 39) over exact rationals: an idealization of the IEEE-double
evaluation (see `charIndexFloat` below for the faithful model; the two
agree at `v = 0`, `v = 255` and for the empty palette, the only inputs on
which this definition is used).  `v` is the luminance sample and `n` the
palette length (`len(chars) - 1` is Python `int` subtraction, so it is
`-1` when `n = 0`). -/
def charIndex (v : ℕ) (n : ℕ) : ℤ :=
  pyTrunc ((v : ℚ) / 255 * ((n : ℚ) - 1))

/-- Python sequence indexing `s[i]`: a negative `i` counts from the end;
an index out of range raises `IndexError`, modelled as `none`. -/
def pyGetChar (s : List Char) (i : ℤ) : Option Char :=
  let j : ℤ := if i < 0 then i + s.length else i
  if 0 ≤ j then s[j.toNat]? else none

/-- `chars[char_index]` for one luminance sample (source line 40). -/
def quantizeChar (chars : List Char) (v : ℕ) : Option Char :=
  pyGetChar chars (charIndex v chars.length)

/-- The inner loop of `image_to_ascii` (source lines 35–40): row `i` is built
from samples `pixels[i * width + j]` for `j = 0, …, width - 1`; `none` models
an `IndexError` escaping to the `except` handler. -/
def asciiLine (pixels : List ℕ) (chars : List Char) (width i : ℕ) :
    Option (List Char) :=
  (List.range width).mapM fun j =>
    (pixels[i * width + j]?).bind fun v => quantizeChar chars v

/-- The loop nest of `image_to_ascii` (source lines 32–43): one row per
`i = 0, …, height - 1`. -/
def imageToAsciiCore (pixels : List ℕ) (chars : List Char)
    (width height : ℕ) : Option (List (List Char)) :=
  (List.range height).mapM fun i => asciiLine pixels chars width i

/-- `image_to_ascii` (source lines 11–47).  The external PIL calls
(`Image.open`, `convert`, `resize`, `getdata`) are abstracted into
`loadRes`: `none` is any load/decode failure carrying message `loadErrMsg`,
`some pixels` is the flat grayscale sample list.  The `except` clause turns
any exception into an error value (printed to stderr by the caller model). -/
def image_to_ascii (loadRes : Option (List ℕ)) (chars : List Char)
    (width height : ℕ) (loadErrMsg : List Char) :
    Except (List Char) (List (List Char)) :=
  match loadRes with
  | none => .error loadErrMsg
  | some pixels =>
    match imageToAsciiCore pixels chars width height with
    | some art => .ok art
    | none => .error ("string index out of range".data)

/-- Python `str.replace(old, new)` for a single-character pattern:
every occurrence of `old` is replaced by `new`. -/
def replaceAll (s : List Char) (old : Char) (new : List Char) : List Char :=
  s.flatMap fun c => if c = old then new else [c]

/-- The escaping chain of `format_for_svg` (source line 66):
`line.replace('&', '&amp;').replace('<', '&lt;').replace('>', '&gt;')`. -/
def escapeRow (line : List Char) : List Char :=
  replaceAll (replaceAll (replaceAll line '&' ("&amp;".data)) '<' ("&lt;".data))
    '>' ("&gt;".data)

/-- One emitted element (source line 67):
`f'<tspan x="{x}" y="{y}">{escaped_line}</tspan>'`. -/
def tspanLine (x y : ℤ) (line : List Char) : List Char :=
  ("<tspan x=\"".data) ++ (toString x).data ++ ("\" y=\"".data) ++
    (toString y).data ++ ("\">".data) ++ escapeRow line ++ ("</tspan>".data)

/-- `format_for_svg` (source lines 49–69): for `(i, line)` in
`enumerate(ascii_lines)`, `y = y_start + i * line_height`; the elements are
joined with a newline. -/
def format_for_svg (lines : List (List Char)) (x yStart lineHeight : ℤ) :
    List Char :=
  List.intercalate ("\n".data)
    (lines.enum.map fun p => tspanLine x (yStart + (p.1 : ℤ) * lineHeight) p.2)

/-- The text output branch of `main` (source lines 92–94):
`print(line)` for each row, each print appending a newline. -/
def renderText (lines : List (List Char)) : List Char :=
  lines.flatMap fun l => l ++ ("\n".data)

/-- Observable outcome of one process run. -/
structure ProcResult where
  exitCode : ℕ
  stdout : List Char
  stderr : List Char
deriving DecidableEq

/-- `main` (source lines 71–94) after argument parsing, with the
exact-rational quantizer (used only for the empty-palette claim, where the
quantizer's arithmetic is irrelevant; `runMainFloat` below is the faithful
model): on an error from `image_to_ascii` the message
`Error processing image: {e}` goes to stderr and the process exits with
status 1 (source lines 46–47); otherwise the chosen renderer's output goes
to stdout (`print` appends a final newline) and the process exits with
status 0. -/
def runMain (loadRes : Option (List ℕ)) (chars : List Char)
    (width height : ℕ) (svgFormat : Bool) (x yStart lineHeight : ℤ)
    (loadErrMsg : List Char) : ProcResult :=
  match image_to_ascii loadRes chars width height loadErrMsg with
  | .error e => ⟨1, [], ("Error processing image: ".data) ++ e ++ ("\n".data)⟩
  | .ok art =>
    if svgFormat then
      ⟨0, format_for_svg art x yStart lineHeight ++ ("\n".data), []⟩
    else
      ⟨0, renderText art, []⟩

/-! ### Basic lemmas about the quantization index -/

theorem pyTrunc_of_nonneg {q : ℚ} (h : 0 ≤ q) : pyTrunc q = ⌊q⌋ := by
  simp [pyTrunc, h]

theorem charIndex_eq_floor (v n : ℕ) (hn : 1 ≤ n) :
    charIndex v n = ⌊(v : ℚ) / 255 * ((n : ℚ) - 1)⌋ := by
  have h1 : (1 : ℚ) ≤ (n : ℚ) := by exact_mod_cast hn
  have hq : 0 ≤ (v : ℚ) / 255 * ((n : ℚ) - 1) :=
    mul_nonneg (by positivity) (by linarith)
  exact pyTrunc_of_nonneg hq

theorem charIndex_eq_div (v n : ℕ) (hn : 1 ≤ n) :
    charIndex v n = ((v * (n - 1) / 255 : ℕ) : ℤ) := by
  rw [charIndex_eq_floor v n hn]
  have hcast : ((n : ℚ) - 1) = ((n - 1 : ℕ) : ℚ) := by
    rw [Nat.cast_sub hn, Nat.cast_one]
  rw [hcast]
  have : (v : ℚ) / 255 * ((n - 1 : ℕ) : ℚ) =
      ((v * (n - 1) : ℕ) : ℚ) / ((255 : ℕ) : ℚ) := by
    push_cast
    ring
  rw [this, Rat.floor_natCast_div_natCast]
  exact (Int.natCast_div _ _).symm

example : charIndex 128 10 = 4 := by
  rw [charIndex_eq_div 128 10 (by decide)]
  decide

theorem pyGetChar_natCast (s : List Char) (k : ℕ) :
    pyGetChar s ((k : ℕ) : ℤ) = s[k]? := by
  have h1 : ¬((k : ℤ) < 0) := not_lt.mpr (Int.natCast_nonneg k)
  simp [pyGetChar, h1, Int.natCast_nonneg, Int.toNat_natCast]

theorem quantizeChar_eq_getElem (chars : List Char) (v : ℕ)
    (h : chars ≠ []) :
    quantizeChar chars v = chars[v * (chars.length - 1) / 255]? := by
  have hn : 1 ≤ chars.length := List.length_pos.mpr h
  rw [quantizeChar, charIndex_eq_div v chars.length hn, pyGetChar_natCast]

/-! ### Claim C6: quantizer endpoints -/

/-- The per-character escaping map described by the spec: `&` → `&amp;`,
`<` → `&lt;`, `>` → `&gt;`, any other character unchanged. -/
def escapeCharSpec (c : Char) : List Char :=
  if c = '&' then "&amp;".data
  else if c = '<' then "&lt;".data
  else if c = '>' then "&gt;".data
  else [c]

theorem replaceAll_append (s t : List Char) (old : Char) (new : List Char) :
    replaceAll (s ++ t) old new = replaceAll s old new ++ replaceAll t old new := by
  simp [replaceAll]

theorem escapeRow_single_pass (line : List Char) :
    escapeRow line = line.flatMap escapeCharSpec := by
  induction line with
  | nil => rfl
  | cons c l ih =>
    have step : escapeRow (c :: l) =
        replaceAll (replaceAll (replaceAll [c] '&' ("&amp;".data)) '<'
          ("&lt;".data)) '>' ("&gt;".data) ++ escapeRow l := by
      unfold escapeRow
      rw [show (c :: l) = [c] ++ l from rfl, replaceAll_append,
        replaceAll_append, replaceAll_append]
    rw [step, List.flatMap_cons, ih]
    congr 1
    by_cases h1 : c = '&'
    · subst h1; decide
    · by_cases h2 : c = '<'
      · subst h2; decide
      · by_cases h3 : c = '>'
        · subst h3; decide
        · simp [replaceAll, escapeCharSpec, h1, h2, h3]

/-- C2: the escaping chain replaces exactly `&`, `<`, `>` — with `&` first —
and is extensionally a single pass over the row: it equals the per-character
map `escapeCharSpec`; in particular the row `&<>` escapes to
`&amp;&lt;&gt;`, not to a double-escaped form. -/
theorem svg_escape_order (line : List Char) :
    escapeRow line = line.flatMap escapeCharSpec ∧
    escapeRow ("&<>".data) = "&amp;&lt;&gt;".data :=
  ⟨escapeRow_single_pass line, by decide⟩

/-! ### Claim C9: the text renderer -/

theorem intercalate_nil (sep : List Char) :
    List.intercalate sep ([] : List (List Char)) = [] := rfl

theorem intercalate_single (sep : List Char) (a : List Char) :
    List.intercalate sep [a] = a := by
  simp [List.intercalate]

theorem intercalate_cons_cons (sep a b : List Char) (l : List (List Char)) :
    List.intercalate sep (a :: b :: l) =
      a ++ sep ++ List.intercalate sep (b :: l) := by
  simp [List.intercalate, List.intersperse]

/-- C9 counterexample: the text output of a one-row art is the row followed
by a newline, which differs from the rows joined by the row separator. -/
theorem renderText_not_plain_join :
    renderText [("a".data)] ≠ List.intercalate ("\n".data) [("a".data)] := by
  decide

/-- C9 (amended): the text output is the rows joined by the newline row
separator followed by one trailing newline when the art is nonempty (empty
art gives empty output); each row appears verbatim, with no transformation
of any character. -/
theorem renderText_join_rows (lines : List (List Char)) :
    renderText lines =
      List.intercalate ("\n".data) lines ++
        (if lines = [] then [] else "\n".data) := by
  induction lines with
  | nil => rfl
  | cons l ls ih =>
    cases ls with
    | nil => simp [renderText, intercalate_single]
    | cons m ms =>
      have hr : renderText (l :: m :: ms) =
          (l ++ ("\n".data)) ++ renderText (m :: ms) := by
        simp [renderText]
      rw [hr, ih, intercalate_cons_cons]
      simp

/-! ### Claim C3: the SVG renderer -/

theorem enumFrom_map_tspan (x lh : ℤ) :
    ∀ (ls : List (List Char)) (k : ℕ) (y0 : ℤ),
      (List.enumFrom k ls).map
          (fun p => tspanLine x (y0 + (p.1 : ℤ) * lh) p.2) =
        (List.range ls.length).map
          (fun i => tspanLine x (y0 + ((k + i : ℕ) : ℤ) * lh) (ls.getD i []))
  | [], _, _ => rfl
  | a :: l, k, y0 => by
    rw [List.enumFrom_cons, List.map_cons, List.length_cons,
      List.range_succ_eq_map, List.map_cons, List.map_map,
      enumFrom_map_tspan x lh l (k + 1) y0]
    congr 1
    apply List.map_congr_left
    intro i _
    simp only [Function.comp_apply, List.getD_cons_succ]
    congr 2
    push_cast
    ring

/-- C3: for an art with `k` rows, the SVG renderer emits exactly `k`
elements joined by newline in row order, element `i` being the `tspan`
element with `x` attribute `x` and `y` attribute `yStart + i * lineHeight`
wrapping row `i`; an empty art yields the empty output. -/
theorem format_for_svg_rows (lines : List (List Char)) (x y0 lh : ℤ) :
    format_for_svg lines x y0 lh =
      List.intercalate ("\n".data)
        ((List.range lines.length).map fun (i : ℕ) =>
          tspanLine x (y0 + (i : ℤ) * lh) (lines.getD i [])) ∧
    format_for_svg [] x y0 lh = [] := by
  constructor
  · unfold format_for_svg
    rw [show lines.enum = List.enumFrom 0 lines from rfl,
      enumFrom_map_tspan x lh lines 0 y0]
    congr 1
    apply List.map_congr_left
    intro i _
    norm_num
  · rfl

/-! ### Generic totality of Option.mapM -/

theorem mapM_option_total {α β : Type} (f : α → Option β) :
    ∀ (xs : List α), (∀ x ∈ xs, (f x).isSome = true) →
      ∃ ys, xs.mapM f = some ys ∧ ys.length = xs.length ∧
        ∀ y ∈ ys, ∃ x ∈ xs, f x = some y
  | [], _ => ⟨[], rfl, rfl, by simp⟩
  | a :: l, h => by
    obtain ⟨b, hb⟩ := Option.isSome_iff_exists.mp (h a (by simp))
    obtain ⟨ys, hys, hlen, hmem⟩ :=
      mapM_option_total f l (fun x hx => h x (by simp [hx]))
    refine ⟨b :: ys, ?_, by simp [hlen], ?_⟩
    · rw [List.mapM_cons, hb, hys]
      rfl
    · intro y hy
      rcases List.mem_cons.mp hy with hy | hy
      · exact ⟨a, by simp, hy ▸ hb⟩
      · obtain ⟨x, hx, hfx⟩ := hmem y hy
        exact ⟨x, by simp [hx], hfx⟩

/-! ### Claim C10: exit behavior with an empty palette -/

theorem pyGetChar_nil (i : ℤ) : pyGetChar [] i = none := by
  simp [pyGetChar]

theorem quantizeChar_nil (v : ℕ) : quantizeChar [] v = none :=
  pyGetChar_nil _

theorem asciiLine_empty_palette (pixels : List ℕ) (width i : ℕ)
    (hw : 1 ≤ width) (hpx : i * width < pixels.length) :
    asciiLine pixels [] width i = none := by
  obtain ⟨w', rfl⟩ : ∃ w', width = w' + 1 := ⟨width - 1, by omega⟩
  unfold asciiLine
  rw [List.range_succ_eq_map]
  simp only [List.mapM_cons,
    List.getElem?_eq_getElem (show i * (w' + 1) + 0 < pixels.length by omega),
    Option.some_bind, quantizeChar_nil, Option.none_bind]
  rfl

theorem imageToAsciiCore_empty_palette (pixels : List ℕ)
    (width height : ℕ) (hw : 1 ≤ width) (hh : 1 ≤ height)
    (hlen : pixels.length = width * height) :
    imageToAsciiCore pixels [] width height = none := by
  obtain ⟨h', rfl⟩ : ∃ h', height = h' + 1 := ⟨height - 1, by omega⟩
  have h0 : asciiLine pixels [] width 0 = none :=
    asciiLine_empty_palette pixels width 0 hw
      (by rw [hlen]; nlinarith)
  unfold imageToAsciiCore
  rw [List.range_succ_eq_map]
  simp only [List.mapM_cons, h0, Option.none_bind]
  rfl

/-- C10: with an empty palette, every successfully loaded image with
positive requested dimensions makes the program fail fast the same way as a
load error: a diagnostic goes to stderr, the exit status is 1 (non-zero),
and nothing is written to stdout. -/
theorem empty_palette_fails (pixels : List ℕ) (width height : ℕ)
    (svg : Bool) (x y0 lh : ℤ) (msg : List Char)
    (hw : 1 ≤ width) (hh : 1 ≤ height)
    (hlen : pixels.length = width * height) :
    (runMain (some pixels) [] width height svg x y0 lh msg).exitCode = 1 ∧
    (runMain (some pixels) [] width height svg x y0 lh msg).stdout = [] ∧
    (runMain (some pixels) [] width height svg x y0 lh msg).stderr ≠ [] := by
  have hc := imageToAsciiCore_empty_palette pixels width height hw hh hlen
  refine ⟨?_, ?_, ?_⟩ <;> simp [runMain, image_to_ascii, hc]

theorem empty_palette_fails_witness :
    1 ≤ 1 ∧ ([77] : List ℕ).length = 1 * 1 ∧
    ((runMain (some [77]) [] 1 1 true 5 10 20 []).exitCode = 1 ∧
     (runMain (some [77]) [] 1 1 true 5 10 20 []).stdout = [] ∧
     (runMain (some [77]) [] 1 1 true 5 10 20 []).stderr ≠ []) :=
  ⟨by decide, by decide,
    empty_palette_fails [77] 1 1 true 5 10 20 [] (by decide) (by decide)
      (by decide)⟩

/-! ### IEEE-754 binary64 rounding, modelled exactly over ℚ

`generate_ascii.py` line 39 evaluates `(pixel_value / 255) * (len(chars) - 1)`
in Python floats (IEEE-754 binary64, round to nearest, ties to even).  The
exact-rational `charIndex` above is an idealization that diverges from the
program at reachable inputs (first at `v = 155` with a 52-character
palette); the definitions below model the double-precision computation
exactly: `rne` is round-to-nearest-integer with ties to even, and `fl`
rounds a rational to 53 significant bits (binary64 with unbounded exponent
range, which agrees with binary64 wherever no underflow/overflow occurs —
the program's values lie far from both). -/

/-- Round to the nearest integer, ties to even. -/
def rne (q : ℚ) : ℤ :=
  if q - ⌊q⌋ < 1/2 then ⌊q⌋
  else if 1/2 < q - ⌊q⌋ then ⌊q⌋ + 1
  else if 2 ∣ ⌊q⌋ then ⌊q⌋ else ⌊q⌋ + 1

theorem rne_intCast (k : ℤ) : rne (k : ℚ) = k := by
  simp [rne]

theorem floor_le_rne (q : ℚ) : ⌊q⌋ ≤ rne q := by
  unfold rne
  split_ifs <;> omega

theorem rne_le_floor_add_one (q : ℚ) : rne q ≤ ⌊q⌋ + 1 := by
  unfold rne
  split_ifs <;> omega

theorem abs_rne_sub (q : ℚ) : |(rne q : ℚ) - q| ≤ 1/2 := by
  have h0 : (⌊q⌋ : ℚ) ≤ q := Int.floor_le q
  have h1 : q < ⌊q⌋ + 1 := Int.lt_floor_add_one q
  unfold rne
  split_ifs with ha hb hc <;>
    · rw [abs_le]
      push_cast
      constructor <;> linarith

theorem rne_mono {q1 q2 : ℚ} (h : q1 ≤ q2) : rne q1 ≤ rne q2 := by
  have hf : ⌊q1⌋ ≤ ⌊q2⌋ := Int.floor_mono h
  rcases lt_or_eq_of_le hf with hlt | heq
  · calc rne q1 ≤ ⌊q1⌋ + 1 := rne_le_floor_add_one q1
      _ ≤ ⌊q2⌋ := by omega
      _ ≤ rne q2 := floor_le_rne q2
  · have hfr : q1 - (⌊q1⌋ : ℚ) ≤ q2 - (⌊q2⌋ : ℚ) := by
      rw [← heq]
      linarith
    unfold rne
    rw [← heq]
    split_ifs <;> first | omega | (exfalso; linarith)

/-- Round a rational to 53 significant binary digits, to nearest, ties to
even: the rounding applied by IEEE-754 binary64 arithmetic (with unbounded
exponent range; it agrees with binary64 wherever no underflow or overflow
occurs, which holds for all values the program computes). -/
def fl (q : ℚ) : ℚ :=
  if q = 0 then 0
  else if 0 < q then
    (rne (q * 2 ^ (52 - Int.log 2 q)) : ℚ) * 2 ^ (Int.log 2 q - 52)
  else
    -((rne (-q * 2 ^ (52 - Int.log 2 (-q))) : ℚ) * 2 ^ (Int.log 2 (-q) - 52))

theorem fl_zero : fl 0 = 0 := by
  simp [fl]

theorem fl_pos_def {q : ℚ} (hq : 0 < q) :
    fl q = (rne (q * 2 ^ (52 - Int.log 2 q)) : ℚ) * 2 ^ (Int.log 2 q - 52) := by
  rw [fl, if_neg hq.ne', if_pos hq]

theorem two_zpow_pos (e : ℤ) : (0 : ℚ) < 2 ^ e :=
  zpow_pos two_pos e

theorem two_zpow_add (a b : ℤ) : (2 : ℚ) ^ (a + b) = 2 ^ a * 2 ^ b :=
  zpow_add₀ two_ne_zero a b

theorem two_zpow_log_le {q : ℚ} (hq : 0 < q) : (2 : ℚ) ^ (Int.log 2 q) ≤ q := by
  have h := Int.zpow_log_le_self (b := 2) one_lt_two hq
  exact_mod_cast h

theorem lt_two_zpow_log (q : ℚ) : q < (2 : ℚ) ^ (Int.log 2 q + 1) := by
  have h := Int.lt_zpow_succ_log_self (b := 2) one_lt_two q
  exact_mod_cast h

theorem log2_eq_of {q : ℚ} {L : ℤ} (hq : 0 < q) (h1 : (2 : ℚ) ^ L ≤ q)
    (h2 : q < (2 : ℚ) ^ (L + 1)) : Int.log 2 q = L := by
  have hge : L ≤ Int.log 2 q := by
    have hmono := Int.log_mono_right (b := 2) (two_zpow_pos L) h1
    rwa [show ((2 : ℚ) ^ L) = (((2 : ℕ) : ℚ)) ^ L by norm_num,
      Int.log_zpow one_lt_two] at hmono
  have hlt : Int.log 2 q < L + 1 := by
    by_contra hcon
    push_neg at hcon
    have h3 : (2 : ℚ) ^ (L + 1) ≤ (2 : ℚ) ^ (Int.log 2 q) :=
      zpow_le_zpow_right₀ (by norm_num) hcon
    have h4 := two_zpow_log_le hq
    linarith
  omega

theorem fl_scaled_lb {q : ℚ} (hq : 0 < q) :
    (2 : ℚ) ^ (52 : ℤ) ≤ q * 2 ^ (52 - Int.log 2 q) := by
  calc (2 : ℚ) ^ (52 : ℤ) = 2 ^ (Int.log 2 q) * 2 ^ (52 - Int.log 2 q) := by
        rw [← two_zpow_add]
        norm_num
    _ ≤ q * 2 ^ (52 - Int.log 2 q) :=
        mul_le_mul_of_nonneg_right (two_zpow_log_le hq) (two_zpow_pos _).le

theorem fl_scaled_ub {q : ℚ} (hq : 0 < q) :
    q * 2 ^ (52 - Int.log 2 q) < (2 : ℚ) ^ (53 : ℤ) := by
  calc q * 2 ^ (52 - Int.log 2 q)
      < 2 ^ (Int.log 2 q + 1) * 2 ^ (52 - Int.log 2 q) :=
        mul_lt_mul_of_pos_right (lt_two_zpow_log q) (two_zpow_pos _)
    _ = (2 : ℚ) ^ (53 : ℤ) := by
        rw [← two_zpow_add]
        congr 1
        ring

theorem fl_sub_abs {q : ℚ} (hq : 0 < q) : |fl q - q| ≤ q / 2 ^ 53 := by
  set L := Int.log 2 q with hL
  set y := q * 2 ^ (52 - L) with hy
  have hq2 : q = y * 2 ^ (L - 52) := by
    rw [hy, mul_assoc, ← two_zpow_add]
    norm_num
  have h3 : fl q - q = ((rne y : ℚ) - y) * 2 ^ (L - 52) := by
    rw [fl_pos_def hq, ← hL, ← hy]
    conv_lhs => rw [hq2]
    ring
  rw [h3, abs_mul, abs_of_pos (two_zpow_pos (L - 52))]
  have h4 : |(rne y : ℚ) - y| ≤ 1 / 2 := abs_rne_sub y
  have h5 : (2 : ℚ) ^ L ≤ q := two_zpow_log_le hq
  calc |(rne y : ℚ) - y| * 2 ^ (L - 52)
      ≤ (1 / 2) * 2 ^ (L - 52) :=
        mul_le_mul_of_nonneg_right h4 (two_zpow_pos _).le
    _ = 2 ^ (L - 53) := by
        rw [show L - 53 = (-1) + (L - 52) by ring, two_zpow_add]
        norm_num
    _ ≤ q * 2 ^ (-53 : ℤ) := by
        rw [show L - 53 = L + (-53) by ring, two_zpow_add]
        exact mul_le_mul_of_nonneg_right h5 (two_zpow_pos _).le
    _ = q / 2 ^ 53 := by
        rw [zpow_neg, ← zpow_natCast (2 : ℚ) 53, div_eq_mul_inv]
        norm_num

theorem fl_nonneg {q : ℚ} (hq : 0 ≤ q) : 0 ≤ fl q := by
  rcases eq_or_lt_of_le hq with h | h
  · rw [← h, fl_zero]
  · rw [fl_pos_def h]
    have h1 := fl_scaled_lb h
    have h2 := floor_le_rne (q * 2 ^ (52 - Int.log 2 q))
    have h3 : (0 : ℤ) ≤ ⌊q * 2 ^ (52 - Int.log 2 q)⌋ := by
      apply Int.le_floor.mpr
      push_cast
      calc (0 : ℚ) ≤ 2 ^ (52 : ℤ) := (two_zpow_pos _).le
        _ ≤ _ := h1
    have h4 : (0 : ℚ) ≤ (rne (q * 2 ^ (52 - Int.log 2 q)) : ℚ) := by
      exact_mod_cast le_trans h3 h2
    exact mul_nonneg h4 (two_zpow_pos _).le

theorem int_cast_two_pow (k : ℕ) : (((2 : ℤ) ^ k : ℤ) : ℚ) = (2 : ℚ) ^ (k : ℤ) := by
  push_cast
  rw [zpow_natCast]

theorem fl_mono {q1 q2 : ℚ} (h0 : 0 ≤ q1) (h : q1 ≤ q2) : fl q1 ≤ fl q2 := by
  rcases eq_or_lt_of_le h0 with h1 | h1
  · rw [← h1, fl_zero]
    exact fl_nonneg (le_trans h0 h)
  · have h2 : 0 < q2 := lt_of_lt_of_le h1 h
    have hL : Int.log 2 q1 ≤ Int.log 2 q2 := Int.log_mono_right h1 h
    rcases lt_or_eq_of_le hL with hlt | heq
    · set L1 := Int.log 2 q1
      set L2 := Int.log 2 q2
      rw [fl_pos_def h1, fl_pos_def h2]
      have hub : (rne (q1 * 2 ^ (52 - L1)) : ℚ) ≤ 2 ^ (53 : ℤ) := by
        have ha := rne_le_floor_add_one (q1 * 2 ^ (52 - L1))
        have hb : ⌊q1 * 2 ^ (52 - L1)⌋ < (2 ^ 53 : ℤ) := by
          apply Int.floor_lt.mpr
          rw [int_cast_two_pow]
          exact fl_scaled_ub h1
        have hc : rne (q1 * 2 ^ (52 - L1)) ≤ (2 ^ 53 : ℤ) := by omega
        calc (rne (q1 * 2 ^ (52 - L1)) : ℚ) ≤ ((2 ^ 53 : ℤ) : ℚ) := by
              exact_mod_cast hc
          _ = 2 ^ (53 : ℤ) := int_cast_two_pow 53
      have hlb : (2 : ℚ) ^ (52 : ℤ) ≤ (rne (q2 * 2 ^ (52 - L2)) : ℚ) := by
        have ha := floor_le_rne (q2 * 2 ^ (52 - L2))
        have hb : (2 ^ 52 : ℤ) ≤ ⌊q2 * 2 ^ (52 - L2)⌋ := by
          apply Int.le_floor.mpr
          rw [int_cast_two_pow]
          exact fl_scaled_lb h2
        have hc : (2 ^ 52 : ℤ) ≤ rne (q2 * 2 ^ (52 - L2)) := by omega
        calc (2 : ℚ) ^ (52 : ℤ) = ((2 ^ 52 : ℤ) : ℚ) := (int_cast_two_pow 52).symm
          _ ≤ _ := by exact_mod_cast hc
      calc (rne (q1 * 2 ^ (52 - L1)) : ℚ) * 2 ^ (L1 - 52)
          ≤ 2 ^ (53 : ℤ) * 2 ^ (L1 - 52) :=
            mul_le_mul_of_nonneg_right hub (two_zpow_pos _).le
        _ = 2 ^ (L1 + 1) := by
            rw [← two_zpow_add]
            congr 1
            ring
        _ ≤ 2 ^ L2 := zpow_le_zpow_right₀ (by norm_num) (by omega)
        _ = 2 ^ (52 : ℤ) * 2 ^ (L2 - 52) := by
            rw [← two_zpow_add]
            congr 1
            ring
        _ ≤ (rne (q2 * 2 ^ (52 - L2)) : ℚ) * 2 ^ (L2 - 52) :=
            mul_le_mul_of_nonneg_right hlb (two_zpow_pos _).le
    · rw [fl_pos_def h1, fl_pos_def h2, ← heq]
      apply mul_le_mul_of_nonneg_right _ (two_zpow_pos _).le
      exact_mod_cast rne_mono (mul_le_mul_of_nonneg_right h (two_zpow_pos _).le)

theorem fl_mantissa_exact (c : ℕ) (t : ℤ) (h1 : 2 ^ 52 ≤ c) (h2 : c < 2 ^ 53) :
    fl ((c : ℚ) * 2 ^ t) = (c : ℚ) * 2 ^ t := by
  have hc0 : (0 : ℚ) < (c : ℚ) := by
    have : 0 < c := lt_of_lt_of_le (by norm_num) h1
    exact_mod_cast this
  have hq : 0 < (c : ℚ) * 2 ^ t := mul_pos hc0 (two_zpow_pos t)
  have hlog : Int.log 2 ((c : ℚ) * 2 ^ t) = 52 + t := by
    apply log2_eq_of hq
    · rw [two_zpow_add]
      apply mul_le_mul_of_nonneg_right _ (two_zpow_pos t).le
      calc (2 : ℚ) ^ (52 : ℤ) = ((2 ^ 52 : ℤ) : ℚ) := (int_cast_two_pow 52).symm
        _ ≤ (c : ℚ) := by exact_mod_cast h1
    · rw [show (52 : ℤ) + t + 1 = 53 + t by ring, two_zpow_add]
      apply mul_lt_mul_of_pos_right _ (two_zpow_pos t)
      calc (c : ℚ) < ((2 ^ 53 : ℤ) : ℚ) := by exact_mod_cast h2
        _ = (2 : ℚ) ^ (53 : ℤ) := int_cast_two_pow 53
  rw [fl_pos_def hq, hlog]
  have hy : (c : ℚ) * 2 ^ t * 2 ^ (52 - (52 + t)) = (c : ℚ) := by
    rw [mul_assoc, ← two_zpow_add, show t + (52 - (52 + t)) = 0 by ring]
    norm_num
  rw [hy, show (52 : ℤ) + t - 52 = t by ring]
  congr 1
  have : rne ((c : ℚ)) = (c : ℤ) := by
    have := rne_intCast (c : ℤ)
    rwa [show (((c : ℤ) : ℚ)) = ((c : ℕ) : ℚ) by push_cast; rfl] at this
  rw [this]
  push_cast
  rfl

theorem fl_natCast_exact (k : ℕ) (hk : k ≤ 2 ^ 53) : fl (k : ℚ) = k := by
  rcases Nat.eq_zero_or_pos k with h0 | h0
  · subst h0
    simpa using fl_zero
  rcases eq_or_lt_of_le hk with htop | hlt
  · subst htop
    have := fl_mantissa_exact (2 ^ 52) 1 (le_refl _) (by norm_num)
    rw [show ((2 ^ 52 : ℕ) : ℚ) * 2 ^ (1 : ℤ) = ((2 ^ 53 : ℕ) : ℚ) by
      push_cast; ring] at this
    exact this
  · set s := 52 - Nat.log 2 k with hs
    have hlog_le : Nat.log 2 k ≤ 52 := by
      have := Nat.log_lt_of_lt_pow h0.ne' hlt
      omega
    have hlb : 2 ^ 52 ≤ k * 2 ^ s := by
      have h1 : 2 ^ Nat.log 2 k ≤ k := Nat.pow_log_le_self 2 h0.ne'
      calc 2 ^ 52 = 2 ^ Nat.log 2 k * 2 ^ s := by
            rw [← pow_add]
            congr 1
            omega
        _ ≤ k * 2 ^ s := Nat.mul_le_mul_right _ h1
    have hub : k * 2 ^ s < 2 ^ 53 := by
      have h1 : k < 2 ^ (Nat.log 2 k + 1) := Nat.lt_pow_succ_log_self one_lt_two k
      calc k * 2 ^ s < 2 ^ (Nat.log 2 k + 1) * 2 ^ s := by
            exact (Nat.mul_lt_mul_right (Nat.two_pow_pos s)).mpr h1
        _ = 2 ^ 53 := by
            rw [← pow_add]
            congr 1
            omega
    have key := fl_mantissa_exact (k * 2 ^ s) (-(s : ℤ)) hlb hub
    have hval : ((k * 2 ^ s : ℕ) : ℚ) * 2 ^ (-(s : ℤ)) = (k : ℚ) := by
      push_cast
      rw [mul_assoc, ← zpow_natCast (2 : ℚ) s, ← two_zpow_add]
      norm_num
    rwa [hval] at key

theorem fl_one : fl 1 = 1 := by
  have := fl_natCast_exact 1 (by norm_num)
  simpa using this

theorem rne_eval_down (y : ℚ) (f : ℤ) (h1 : (f : ℚ) ≤ y) (h2 : y - f < 1/2) :
    rne y = f := by
  have hf : ⌊y⌋ = f := Int.floor_eq_iff.mpr ⟨h1, by linarith⟩
  unfold rne
  rw [hf, if_pos h2]

theorem rne_eval_tie_up (y : ℚ) (f : ℤ) (hf : y = (f : ℚ) + 1/2)
    (hodd : ¬(2 ∣ f)) : rne y = f + 1 := by
  have hfl : ⌊y⌋ = f := Int.floor_eq_iff.mpr ⟨by linarith [hf.ge], by
    rw [hf]; push_cast; linarith⟩
  unfold rne
  rw [hfl, if_neg (by rw [hf]; push_cast; linarith),
    if_neg (by rw [hf]; push_cast; linarith), if_neg hodd]

theorem fl_eval (q : ℚ) (L r : ℤ) (hq : 0 < q)
    (h1 : (2 : ℚ) ^ L ≤ q) (h2 : q < (2 : ℚ) ^ (L + 1))
    (hr : rne (q * 2 ^ (52 - L)) = r) :
    fl q = (r : ℚ) * 2 ^ (L - 52) := by
  rw [fl_pos_def hq, log2_eq_of hq h1 h2, hr]

theorem pyTrunc_intCast (k : ℤ) : pyTrunc (k : ℚ) = k := by
  unfold pyTrunc
  split_ifs with h
  · exact Int.floor_intCast k
  · rw [show (-(k : ℚ)) = ((-k : ℤ) : ℚ) by push_cast; ring, Int.floor_intCast]
    ring

theorem pyTrunc_mono_nonneg {a b : ℚ} (h0 : 0 ≤ a) (h : a ≤ b) :
    pyTrunc a ≤ pyTrunc b := by
  rw [pyTrunc_of_nonneg h0, pyTrunc_of_nonneg (le_trans h0 h)]
  exact Int.floor_mono h

theorem pyGetChar_of_nonneg (s : List Char) (i : ℤ) (h : 0 ≤ i) :
    pyGetChar s i = s[i.toNat]? := by
  have h1 : ¬(i < 0) := not_lt.mpr h
  simp [pyGetChar, h1, h]

/-! ### The float-faithful quantizer and pipeline

These definitions repeat the pipeline with the index computed exactly as
the program computes it: `pixel_value / 255` rounds to a double, the
integer `len(chars) - 1` converts to a double, and the product rounds to a
double before `int(...)` truncates toward zero. -/

/-- `int((pixel_value / 255) * (len(chars) - 1))` (source line 39) with the
IEEE-double evaluation modelled exactly: each of the division result, the
converted integer `len(chars) - 1`, and the product is rounded to binary64
by `fl`, then truncated toward zero. -/
def charIndexFloat (v : ℕ) (n : ℕ) : ℤ :=
  pyTrunc (fl (fl ((v : ℚ) / 255) * fl ((n : ℚ) - 1)))

/-- `chars[char_index]` (source line 40), float-faithful index. -/
def quantizeCharFloat (chars : List Char) (v : ℕ) : Option Char :=
  pyGetChar chars (charIndexFloat v chars.length)

/-- The inner loop of `image_to_ascii` (source lines 35–40), float-faithful. -/
def asciiLineFloat (pixels : List ℕ) (chars : List Char) (width i : ℕ) :
    Option (List Char) :=
  (List.range width).mapM fun j =>
    (pixels[i * width + j]?).bind fun v => quantizeCharFloat chars v

/-- The loop nest of `image_to_ascii` (source lines 32–43), float-faithful. -/
def imageToAsciiCoreFloat (pixels : List ℕ) (chars : List Char)
    (width height : ℕ) : Option (List (List Char)) :=
  (List.range height).mapM fun i => asciiLineFloat pixels chars width i

/-- `image_to_ascii` (source lines 11–47), float-faithful; see
`image_to_ascii` above for the modelling of the external loader. -/
def image_to_asciiFloat (loadRes : Option (List ℕ)) (chars : List Char)
    (width height : ℕ) (loadErrMsg : List Char) :
    Except (List Char) (List (List Char)) :=
  match loadRes with
  | none => .error loadErrMsg
  | some pixels =>
    match imageToAsciiCoreFloat pixels chars width height with
    | some art => .ok art
    | none => .error ("string index out of range".data)

/-- `main` (source lines 71–94), float-faithful; see `runMain` above. -/
def runMainFloat (loadRes : Option (List ℕ)) (chars : List Char)
    (width height : ℕ) (svgFormat : Bool) (x yStart lineHeight : ℤ)
    (loadErrMsg : List Char) : ProcResult :=
  match image_to_asciiFloat loadRes chars width height loadErrMsg with
  | .error e => ⟨1, [], ("Error processing image: ".data) ++ e ++ ("\n".data)⟩
  | .ok art =>
    if svgFormat then
      ⟨0, format_for_svg art x yStart lineHeight ++ ("\n".data), []⟩
    else
      ⟨0, renderText art, []⟩

theorem charIndexFloat_zero_sample (n : ℕ) : charIndexFloat 0 n = 0 := by
  unfold charIndexFloat
  rw [show ((0 : ℕ) : ℚ) / 255 = 0 by norm_num, fl_zero, zero_mul, fl_zero,
    show (0 : ℚ) = ((0 : ℤ) : ℚ) by norm_num, pyTrunc_intCast]

theorem cast_sub_one_eq (n : ℕ) (hn : 1 ≤ n) :
    ((n : ℚ) - 1) = ((n - 1 : ℕ) : ℚ) := by
  rw [Nat.cast_sub hn, Nat.cast_one]

theorem charIndexFloat_one_palette (v : ℕ) : charIndexFloat v 1 = 0 := by
  unfold charIndexFloat
  rw [show ((1 : ℕ) : ℚ) - 1 = 0 by norm_num, fl_zero, mul_zero, fl_zero,
    show (0 : ℚ) = ((0 : ℤ) : ℚ) by norm_num, pyTrunc_intCast]

theorem quantizeCharFloat_nil (v : ℕ) : quantizeCharFloat [] v = none :=
  pyGetChar_nil _

theorem charIndexFloat_nonneg (v n : ℕ) (hn : 1 ≤ n) :
    0 ≤ charIndexFloat v n := by
  unfold charIndexFloat
  have hx : 0 ≤ fl ((v : ℚ) / 255) := fl_nonneg (by positivity)
  have hm : 0 ≤ fl ((n : ℚ) - 1) := by
    apply fl_nonneg
    have : (1 : ℚ) ≤ (n : ℚ) := by exact_mod_cast hn
    linarith
  have hy : 0 ≤ fl (fl ((v : ℚ) / 255) * fl ((n : ℚ) - 1)) :=
    fl_nonneg (mul_nonneg hx hm)
  rw [pyTrunc_of_nonneg hy]
  exact Int.le_floor.mpr (by exact_mod_cast hy)

theorem fl_sample_le_one (v : ℕ) (hv : v ≤ 255) : fl ((v : ℚ) / 255) ≤ 1 := by
  have h1 : (v : ℚ) / 255 ≤ 1 := by
    rw [div_le_one (by norm_num)]
    exact_mod_cast hv
  calc fl ((v : ℚ) / 255) ≤ fl 1 := fl_mono (by positivity) h1
    _ = 1 := fl_one

theorem charIndexFloat_le (v n : ℕ) (hn : 1 ≤ n) (hnb : n ≤ 2 ^ 53 + 1)
    (hv : v ≤ 255) : charIndexFloat v n ≤ (n : ℤ) - 1 := by
  unfold charIndexFloat
  set m := n - 1 with hm
  have hcast : ((n : ℚ) - 1) = ((m : ℕ) : ℚ) := cast_sub_one_eq n hn
  have hflm : fl ((n : ℚ) - 1) = ((m : ℕ) : ℚ) := by
    rw [hcast]
    exact fl_natCast_exact m (by omega)
  have hx0 : 0 ≤ fl ((v : ℚ) / 255) := fl_nonneg (by positivity)
  have hx1 : fl ((v : ℚ) / 255) ≤ 1 := fl_sample_le_one v hv
  have hprod : fl ((v : ℚ) / 255) * fl ((n : ℚ) - 1) ≤ ((m : ℕ) : ℚ) := by
    rw [hflm]
    calc fl ((v : ℚ) / 255) * ((m : ℕ) : ℚ) ≤ 1 * ((m : ℕ) : ℚ) :=
          mul_le_mul_of_nonneg_right hx1 (by positivity)
      _ = ((m : ℕ) : ℚ) := one_mul _
  have hprod0 : 0 ≤ fl ((v : ℚ) / 255) * fl ((n : ℚ) - 1) := by
    rw [hflm]
    exact mul_nonneg hx0 (by positivity)
  have hy : fl (fl ((v : ℚ) / 255) * fl ((n : ℚ) - 1)) ≤ ((m : ℕ) : ℚ) := by
    calc fl (fl ((v : ℚ) / 255) * fl ((n : ℚ) - 1)) ≤ fl ((m : ℕ) : ℚ) :=
          fl_mono hprod0 hprod
      _ = ((m : ℕ) : ℚ) := fl_natCast_exact m (by omega)
  have hy0 : 0 ≤ fl (fl ((v : ℚ) / 255) * fl ((n : ℚ) - 1)) :=
    fl_nonneg hprod0
  rw [pyTrunc_of_nonneg hy0]
  have h2 : ⌊fl (fl ((v : ℚ) / 255) * fl ((n : ℚ) - 1))⌋ ≤ (m : ℤ) := by
    calc ⌊fl (fl ((v : ℚ) / 255) * fl ((n : ℚ) - 1))⌋ ≤ ⌊((m : ℕ) : ℚ)⌋ :=
          Int.floor_mono hy
      _ = (m : ℤ) := by exact_mod_cast Int.floor_intCast (m : ℤ)
  omega

theorem quantizeCharFloat_isSome (chars : List Char) (v : ℕ)
    (h : chars ≠ []) (hb : chars.length ≤ 2 ^ 53 + 1) (hv : v ≤ 255) :
    (quantizeCharFloat chars v).isSome = true := by
  have hn : 1 ≤ chars.length := List.length_pos.mpr h
  have h0 := charIndexFloat_nonneg v chars.length hn
  have h1 := charIndexFloat_le v chars.length hn hb hv
  rw [quantizeCharFloat, pyGetChar_of_nonneg _ _ h0,
    List.getElem?_eq_getElem (by omega)]
  rfl

/-! ### Claim C7: monotonicity of the float-computed index -/

/-- C7: for every palette length `n ≥ 2` and samples `v₁ ≤ v₂ ≤ 255`, the
index the program computes (IEEE-double evaluation of
`(v / 255) * (n - 1)`, truncated) for `v₁` is at most the index computed
for `v₂`: every rounding stage is monotone. -/
theorem charIndexFloat_monotone (n v1 v2 : ℕ) (hn : 2 ≤ n) (h12 : v1 ≤ v2)
    (h2 : v2 ≤ 255) :
    charIndexFloat v1 n ≤ charIndexFloat v2 n := by
  unfold charIndexFloat
  have hm : 0 ≤ fl ((n : ℚ) - 1) := by
    apply fl_nonneg
    have : (2 : ℚ) ≤ (n : ℚ) := by exact_mod_cast hn
    linarith
  have hx0 : 0 ≤ fl ((v1 : ℚ) / 255) := fl_nonneg (by positivity)
  have hxm : fl ((v1 : ℚ) / 255) ≤ fl ((v2 : ℚ) / 255) := by
    apply fl_mono (by positivity)
    apply div_le_div_of_nonneg_right _ (by norm_num)
    · exact_mod_cast h12
  have hp : fl ((v1 : ℚ) / 255) * fl ((n : ℚ) - 1) ≤
      fl ((v2 : ℚ) / 255) * fl ((n : ℚ) - 1) :=
    mul_le_mul_of_nonneg_right hxm hm
  have hp0 : 0 ≤ fl ((v1 : ℚ) / 255) * fl ((n : ℚ) - 1) :=
    mul_nonneg hx0 hm
  exact pyTrunc_mono_nonneg (fl_nonneg hp0) (fl_mono hp0 hp)

theorem charIndexFloat_monotone_witness :
    2 ≤ 10 ∧ (100 : ℕ) ≤ 200 ∧ (200 : ℕ) ≤ 255 ∧
    charIndexFloat 100 10 ≤ charIndexFloat 200 10 :=
  ⟨by decide, by decide, by decide,
    charIndexFloat_monotone 10 100 200 (by decide) (by decide) (by decide)⟩

/-! ### Claim C8: index bounds -/

theorem nat_cast_two_pow (k : ℕ) : (((2 : ℕ) ^ k : ℕ) : ℚ) = (2 : ℚ) ^ (k : ℤ) := by
  push_cast
  rw [zpow_natCast]

theorem fl_conv_rounds_up : fl ((2 ^ 53 + 3 : ℕ) : ℚ) =
    ((2 ^ 52 + 2 : ℕ) : ℚ) * 2 ^ (1 : ℤ) := by
  have heval := fl_eval (((2 ^ 53 + 3 : ℕ) : ℚ)) 53 (2 ^ 52 + 2)
    (by push_cast; norm_num)
    (by rw [show ((2 : ℚ) ^ (53 : ℤ)) = ((2 ^ 53 : ℕ) : ℚ) from
          (nat_cast_two_pow 53).symm]
        push_cast
        norm_num)
    (by rw [show ((2 : ℚ) ^ ((53 : ℤ) + 1)) = ((2 ^ 54 : ℕ) : ℚ) from
          (nat_cast_two_pow 54).symm]
        push_cast
        norm_num)
    (by
      have harg : (((2 ^ 53 + 3 : ℕ) : ℚ)) * 2 ^ (52 - 53 : ℤ) =
          ((2 ^ 52 + 1 : ℤ) : ℚ) + 1 / 2 := by
        rw [show (52 - 53 : ℤ) = -1 by norm_num, zpow_neg, zpow_one]
        push_cast
        ring
      rw [harg, rne_eval_tie_up (((2 ^ 52 + 1 : ℤ) : ℚ) + 1 / 2) (2 ^ 52 + 1)
        rfl (by decide)]
      norm_num)
  rw [heval, show (53 - 52 : ℤ) = 1 by norm_num]
  push_cast
  ring

theorem charIndexFloat_huge :
    charIndexFloat 255 (2 ^ 53 + 4) = 2 ^ 53 + 4 := by
  unfold charIndexFloat
  rw [show ((255 : ℕ) : ℚ) / 255 = 1 by norm_num, fl_one,
    show (((2 ^ 53 + 4 : ℕ) : ℚ)) - 1 = ((2 ^ 53 + 3 : ℕ) : ℚ) by
      push_cast; ring,
    fl_conv_rounds_up, one_mul,
    fl_mantissa_exact (2 ^ 52 + 2) 1 (by norm_num) (by norm_num),
    show (((2 ^ 52 + 2 : ℕ) : ℚ)) * 2 ^ (1 : ℤ) = ((2 ^ 53 + 4 : ℤ) : ℚ) by
      push_cast; ring,
    pyTrunc_intCast]

/-- C8 counterexample: with the palette of `2^53 + 4` identical characters
and the sample `255`, the float conversion of `len(chars) - 1 = 2^53 + 3`
rounds up to `2^53 + 4`, the computed index exceeds `len(chars) - 1`, the
palette lookup is out of bounds, and the per-sample quantization fails —
so the in-bounds/no-failure property does not hold for every palette of
length `n ≥ 1`. -/
theorem quantize_float_out_of_bounds :
    quantizeCharFloat (List.replicate (2 ^ 53 + 4) 'a') 255 = none ∧
    ¬(charIndexFloat 255 (2 ^ 53 + 4) ≤ ((2 ^ 53 + 4 : ℕ) : ℤ) - 1) := by
  constructor
  · rw [quantizeCharFloat, List.length_replicate, charIndexFloat_huge,
      pyGetChar_of_nonneg _ _ (by positivity)]
    apply List.getElem?_eq_none
    rw [List.length_replicate]
    decide
  · rw [charIndexFloat_huge]
    push_cast
    decide

/-- C8 (amended): for every sample `v ≤ 255` and palette of length `n` with
`1 ≤ n ≤ 2^53 + 1` (so that the float conversion of `n - 1` is exact — in
particular every palette that can exist in practice), the float-computed
quantization index lies in `[0, n-1]`, palette indexing is in bounds and
the per-sample quantization cannot fail. -/
theorem quantize_float_in_bounds (P : List Char) (v : ℕ)
    (hP : 1 ≤ P.length) (hPb : P.length ≤ 2 ^ 53 + 1) (hv : v ≤ 255) :
    0 ≤ charIndexFloat v P.length ∧
    charIndexFloat v P.length ≤ (P.length : ℤ) - 1 ∧
    (quantizeCharFloat P v).isSome = true :=
  ⟨charIndexFloat_nonneg v P.length hP,
   charIndexFloat_le v P.length hP hPb hv,
   quantizeCharFloat_isSome P v (List.length_pos.mp hP) hPb hv⟩

theorem quantize_float_in_bounds_witness :
    1 ≤ ("@%#*+=-:. ".data).length ∧
    ("@%#*+=-:. ".data).length ≤ 2 ^ 53 + 1 ∧ (77 : ℕ) ≤ 255 ∧
    (0 ≤ charIndexFloat 77 ("@%#*+=-:. ".data).length ∧
    charIndexFloat 77 ("@%#*+=-:. ".data).length ≤
      (("@%#*+=-:. ".data).length : ℤ) - 1 ∧
    (quantizeCharFloat ("@%#*+=-:. ".data) 77).isSome = true) :=
  ⟨by decide, by decide, by decide,
    quantize_float_in_bounds ("@%#*+=-:. ".data) 77 (by decide) (by decide)
      (by decide)⟩

/-! ### Claim C1: the selected index -/

theorem fl_sample_155 : fl (((155 : ℕ) : ℚ) / 255) =
    (5474964252881779 : ℚ) * 2 ^ (-53 : ℤ) := by
  have h : ((155 : ℕ) : ℚ) / 255 = 31 / 51 := by norm_num
  rw [h]
  have heval := fl_eval (31 / 51 : ℚ) (-1) 5474964252881779
    (by norm_num)
    (by rw [show ((-1 : ℤ)) = -((1 : ℕ) : ℤ) by norm_num, zpow_neg,
          zpow_natCast]
        norm_num)
    (by rw [show ((-1 : ℤ) + 1) = 0 by norm_num, zpow_zero]
        norm_num)
    (by
      have harg : (31 / 51 : ℚ) * 2 ^ (52 - (-1) : ℤ) =
          (279223176896970752 : ℚ) / 51 := by
        rw [show (52 - (-1) : ℤ) = ((53 : ℕ) : ℤ) by norm_num, zpow_natCast]
        norm_num
      rw [harg]
      apply rne_eval_down _ 5474964252881779 (by norm_num) (by norm_num))
  rw [heval, show ((-1 : ℤ) - 52) = (-53 : ℤ) by norm_num]
  norm_num

theorem fl_prod_155 :
    fl ((5474964252881779 : ℚ) * 2 ^ (-53 : ℤ) * 51) =
      (8725724278030335 : ℚ) * 2 ^ (-48 : ℤ) := by
  have hneg : ∀ (a : ℚ) (k : ℕ), a * 2 ^ (-(k : ℤ)) = a / 2 ^ k := by
    intro a k
    rw [zpow_neg, zpow_natCast, div_eq_mul_inv]
  have harg : (5474964252881779 : ℚ) * 2 ^ (-53 : ℤ) * 51 =
      (279223176896970729 : ℚ) * 2 ^ (-53 : ℤ) := by
    rw [show ((-53 : ℤ)) = -((53 : ℕ) : ℤ) by norm_num, hneg, hneg]
    norm_num
  rw [harg]
  have heval := fl_eval ((279223176896970729 : ℚ) * 2 ^ (-53 : ℤ)) 4
    8725724278030335
    (by positivity)
    (by rw [show ((-53 : ℤ)) = -((53 : ℕ) : ℤ) by norm_num, hneg,
          show ((4 : ℤ)) = ((4 : ℕ) : ℤ) by norm_num, zpow_natCast]
        norm_num)
    (by rw [show ((-53 : ℤ)) = -((53 : ℕ) : ℤ) by norm_num, hneg,
          show ((4 : ℤ) + 1) = ((5 : ℕ) : ℤ) by norm_num, zpow_natCast]
        norm_num)
    (by
      have harg2 : (279223176896970729 : ℚ) * 2 ^ (-53 : ℤ) *
          2 ^ (52 - 4 : ℤ) = (279223176896970729 : ℚ) / 32 := by
        rw [mul_assoc, ← two_zpow_add,
          show ((-53 : ℤ) + (52 - 4)) = -((5 : ℕ) : ℤ) by norm_num, hneg]
        norm_num
      rw [harg2]
      apply rne_eval_down _ 8725724278030335 (by norm_num) (by norm_num))
  rw [heval, show ((4 : ℤ) - 52) = (-48 : ℤ) by norm_num]
  norm_num

theorem charIndexFloat_155_52 : charIndexFloat 155 52 = 30 := by
  unfold charIndexFloat
  rw [fl_sample_155,
    show (((52 : ℕ) : ℚ) - 1) = ((51 : ℕ) : ℚ) by push_cast; norm_num,
    fl_natCast_exact 51 (by norm_num),
    show (((51 : ℕ) : ℚ)) = (51 : ℚ) by push_cast; rfl,
    fl_prod_155]
  have h0 : (0 : ℚ) ≤ (8725724278030335 : ℚ) * 2 ^ (-48 : ℤ) := by positivity
  rw [pyTrunc_of_nonneg h0]
  apply Int.floor_eq_iff.mpr
  have hneg : (2 : ℚ) ^ (-48 : ℤ) = ((2 ^ 48 : ℚ))⁻¹ := by
    rw [show ((-48 : ℤ)) = -((48 : ℕ) : ℤ) by norm_num, zpow_neg, zpow_natCast]
  rw [hneg]
  constructor <;> norm_num

/-- C1 counterexample: at sample `155` with the 52-character palette
`A…Za…z`, the program's float-evaluated index is `30` (it selects `'e'`),
while `⌊155/255 · 51⌋ = 31` (whose character is `'f'`): quantize does not
select the character at index `⌊v/255 · (n-1)⌋`. -/
theorem quantize_floor_formula_counterexample :
    charIndexFloat 155 52 = 30 ∧
    ⌊(155 : ℚ) / 255 * ((52 : ℚ) - 1)⌋ = 31 ∧
    ("ABCDEFGHIJKLMNOPQRSTUVWXYZabcdefghijklmnopqrstuvwxyz".data).length = 52 ∧
    quantizeCharFloat
      ("ABCDEFGHIJKLMNOPQRSTUVWXYZabcdefghijklmnopqrstuvwxyz".data) 155 =
      some 'e' ∧
    ("ABCDEFGHIJKLMNOPQRSTUVWXYZabcdefghijklmnopqrstuvwxyz".data)[31]? =
      some 'f' := by
  have hfloor : ⌊(155 : ℚ) / 255 * ((52 : ℚ) - 1)⌋ = 31 := by
    rw [show (155 : ℚ) / 255 * ((52 : ℚ) - 1) = ((31 : ℤ) : ℚ) by norm_num,
      Int.floor_intCast]
  have hlen :
      ("ABCDEFGHIJKLMNOPQRSTUVWXYZabcdefghijklmnopqrstuvwxyz".data).length
        = 52 := by decide
  refine ⟨charIndexFloat_155_52, hfloor, hlen, ?_, by decide⟩
  rw [quantizeCharFloat, hlen, charIndexFloat_155_52,
    pyGetChar_of_nonneg _ _ (by norm_num)]
  decide

theorem floatIndex_near_floor (v m : ℕ) (hv1 : 1 ≤ v) (hv : v ≤ 255)
    (hm1 : 1 ≤ m) (hmb : m ≤ 2 ^ 40) :
    ⌊(v : ℚ) / 255 * (m : ℚ)⌋ - 1 ≤ ⌊fl (fl ((v : ℚ) / 255) * (m : ℚ))⌋ ∧
    ⌊fl (fl ((v : ℚ) / 255) * (m : ℚ))⌋ ≤ ⌊(v : ℚ) / 255 * (m : ℚ)⌋ := by
  set s : ℚ := (v : ℚ) / 255 with hs
  have hs0 : 0 < s := by
    rw [hs]
    apply div_pos (by exact_mod_cast hv1) (by norm_num)
  set x := fl s with hx
  have hxe : |x - s| ≤ s / 2 ^ 53 := fl_sub_abs hs0
  have hm0 : (0 : ℚ) < (m : ℚ) := by exact_mod_cast hm1
  set e : ℚ := s * m with he
  have he0 : 0 < e := mul_pos hs0 hm0
  set p : ℚ := x * m with hp
  have hpe : |p - e| ≤ e / 2 ^ 53 := by
    have hrw : p - e = (x - s) * m := by rw [hp, he]; ring
    rw [hrw, abs_mul, abs_of_pos hm0]
    calc |x - s| * m ≤ (s / 2 ^ 53) * m :=
          mul_le_mul_of_nonneg_right hxe hm0.le
      _ = e / 2 ^ 53 := by rw [he]; ring
  have hs53 : s / 2 ^ 53 < s := by
    rw [div_lt_iff (by norm_num : (0 : ℚ) < 2 ^ 53)]
    nlinarith [hs0]
  have hx0 : 0 < x := by
    have h1 := abs_le.mp hxe
    linarith
  have hp0 : 0 < p := mul_pos hx0 hm0
  set y := fl p with hy
  have hye : |y - p| ≤ p / 2 ^ 53 := fl_sub_abs hp0
  have hee : e / 2 ^ 53 ≤ e := by
    rw [div_le_iff (by norm_num : (0 : ℚ) < 2 ^ 53)]
    nlinarith [he0]
  have hp2 : p ≤ 2 * e := by
    have h1 := abs_le.mp hpe
    linarith
  have hpdiv : p / 2 ^ 53 ≤ 2 * e / 2 ^ 53 :=
    (div_le_div_right (by norm_num : (0 : ℚ) < 2 ^ 53)).mpr hp2
  have htot : |y - e| ≤ 3 * e / 2 ^ 53 := by
    have h1 := abs_le.mp hpe
    have h2 := abs_le.mp hye
    rw [abs_le]
    constructor <;> linarith
  have hs1 : s ≤ 1 := by
    rw [hs, div_le_one (by norm_num)]
    exact_mod_cast hv
  have hem : e ≤ (m : ℚ) := by
    rw [he]
    calc s * m ≤ 1 * m := mul_le_mul_of_nonneg_right hs1 hm0.le
      _ = (m : ℚ) := one_mul _
  have hmb' : (m : ℚ) ≤ 2 ^ 40 := by exact_mod_cast hmb
  have hdelta : 3 * e / 2 ^ 53 < 1 / 255 := by
    have h3 : 3 * e ≤ 3 * (2 : ℚ) ^ 40 := by linarith
    calc 3 * e / 2 ^ 53 ≤ 3 * (2 : ℚ) ^ 40 / 2 ^ 53 :=
          (div_le_div_right (by norm_num : (0 : ℚ) < 2 ^ 53)).mpr h3
      _ < 1 / 255 := by norm_num
  have hecast : e = ((v * m : ℕ) : ℚ) / 255 := by
    rw [he, hs]
    push_cast
    ring
  have hgap : (⌊e⌋ : ℚ) + 1 - e ≥ 1 / 255 := by
    have hfl : ⌊e⌋ = ((v * m / 255 : ℕ) : ℤ) := by
      rw [hecast, show ((255 : ℚ)) = ((255 : ℕ) : ℚ) by norm_num,
        Rat.floor_natCast_div_natCast]
      exact (Int.natCast_div _ _).symm
    have hj : v * m ≤ 255 * (v * m / 255) + 254 := by omega
    have hjq : ((v * m : ℕ) : ℚ) ≤ 255 * ((v * m / 255 : ℕ) : ℚ) + 254 := by
      exact_mod_cast hj
    rw [hfl, hecast, show (((v * m / 255 : ℕ) : ℤ) : ℚ) =
      ((v * m / 255 : ℕ) : ℚ) by push_cast; rfl]
    linarith
  have he_lb : (⌊e⌋ : ℚ) ≤ e := Int.floor_le e
  have habs := abs_le.mp htot
  constructor
  · -- lower bound
    have hylb : ((⌊e⌋ - 1 : ℤ) : ℚ) ≤ y := by
      push_cast
      linarith
    have := Int.le_floor.mpr hylb
    omega
  · -- upper bound
    have hyub : y < ((⌊e⌋ + 1 : ℤ) : ℚ) := by
      push_cast
      linarith
    have := Int.floor_lt.mpr hyub
    omega

/-- C1 (amended): for every sample `v ≤ 255` and palette of length `n` with
`1 ≤ n ≤ 2^40 + 1`, quantize selects the palette character at the index the
program computes — `int` of the IEEE-double evaluation of
`(v/255)·(n-1)` — and that index equals `⌊v/255·(n-1)⌋` or
`⌊v/255·(n-1)⌋ - 1` (one below exactly when the float product rounds just
below an integer); the selection always succeeds, and for `n = 1` the index
is `0`, so every sample maps to the single palette character. -/
theorem quantize_float_selects (P : List Char) (v : ℕ)
    (hP : 1 ≤ P.length) (hPb : P.length ≤ 2 ^ 40 + 1) (hv : v ≤ 255) :
    quantizeCharFloat P v = P[(charIndexFloat v P.length).toNat]? ∧
    ⌊(v : ℚ) / 255 * ((P.length : ℚ) - 1)⌋ - 1 ≤ charIndexFloat v P.length ∧
    charIndexFloat v P.length ≤ ⌊(v : ℚ) / 255 * ((P.length : ℚ) - 1)⌋ ∧
    (quantizeCharFloat P v).isSome = true ∧
    (P.length = 1 → charIndexFloat v P.length = 0) := by
  have h53 : P.length ≤ 2 ^ 53 + 1 := by
    have h40 : (2 : ℕ) ^ 40 + 1 ≤ 2 ^ 53 + 1 := by norm_num
    omega
  have hB : ⌊(v : ℚ) / 255 * ((P.length : ℚ) - 1)⌋ - 1 ≤
      charIndexFloat v P.length ∧
      charIndexFloat v P.length ≤ ⌊(v : ℚ) / 255 * ((P.length : ℚ) - 1)⌋ := by
    set n := P.length with hn
    rcases Nat.lt_or_ge n 2 with h2 | h2
    · have hn1 : n = 1 := by omega
      rw [hn1, charIndexFloat_one_palette,
        show (((1 : ℕ) : ℚ) - 1) = 0 by norm_num, mul_zero, Int.floor_zero]
      exact ⟨by omega, le_refl 0⟩
    · set m := n - 1 with hm
      have hm1 : 1 ≤ m := by omega
      have hmb : m ≤ 2 ^ 40 := by
        have hb := hPb
        omega
      have hrw1 : ((n : ℚ) - 1) = ((m : ℕ) : ℚ) := cast_sub_one_eq n (by omega)
      have hrwfl : fl ((n : ℚ) - 1) = ((m : ℕ) : ℚ) := by
        rw [hrw1]
        exact fl_natCast_exact m (le_trans hmb (by norm_num))
      rcases Nat.eq_zero_or_pos v with hv0 | hv1
      · subst hv0
        rw [charIndexFloat_zero_sample,
          show ((0 : ℕ) : ℚ) / 255 = 0 by norm_num, zero_mul, Int.floor_zero]
        exact ⟨by omega, le_refl 0⟩
      · unfold charIndexFloat
        rw [hrwfl, hrw1]
        have hpt : pyTrunc (fl (fl ((v : ℚ) / 255) * ((m : ℕ) : ℚ))) =
            ⌊fl (fl ((v : ℚ) / 255) * ((m : ℕ) : ℚ))⌋ := by
          apply pyTrunc_of_nonneg
          exact fl_nonneg (mul_nonneg (fl_nonneg (by positivity)) (by positivity))
        rw [hpt]
        exact floatIndex_near_floor v m hv1 hv hm1 hmb
  refine ⟨?_, hB.1, hB.2,
    quantizeCharFloat_isSome P v (List.length_pos.mp hP) h53 hv,
    fun h1 => by rw [h1]; exact charIndexFloat_one_palette v⟩
  rw [quantizeCharFloat,
    pyGetChar_of_nonneg _ _ (charIndexFloat_nonneg v P.length hP)]

theorem quantize_float_selects_witness :
    1 ≤ ("@ ".data).length ∧ ("@ ".data).length ≤ 2 ^ 40 + 1 ∧
    (128 : ℕ) ≤ 255 ∧
    (quantizeCharFloat ("@ ".data) 128 =
      ("@ ".data)[(charIndexFloat 128 ("@ ".data).length).toNat]? ∧
    ⌊(128 : ℚ) / 255 * ((("@ ".data).length : ℚ) - 1)⌋ - 1 ≤
      charIndexFloat 128 ("@ ".data).length ∧
    charIndexFloat 128 ("@ ".data).length ≤
      ⌊(128 : ℚ) / 255 * ((("@ ".data).length : ℚ) - 1)⌋ ∧
    (quantizeCharFloat ("@ ".data) 128).isSome = true ∧
    (("@ ".data).length = 1 → charIndexFloat 128 ("@ ".data).length = 0)) :=
  ⟨by decide, by decide, by decide,
    quantize_float_selects ("@ ".data) 128 (by decide) (by decide) (by decide)⟩

/-! ### Claim C4: output dimensions of the float pipeline -/

theorem mapM_option_spec {α β : Type} (f : α → Option β) :
    ∀ (xs : List α) (ys : List β), xs.mapM f = some ys →
      ys.length = xs.length ∧ ∀ y ∈ ys, ∃ x ∈ xs, f x = some y
  | [], ys, h => by
    have hys : ys = [] := by
      rw [List.mapM_nil] at h
      exact (Option.some_inj.mp h).symm
    subst hys
    exact ⟨rfl, by simp⟩
  | a :: l, ys, h => by
    rw [List.mapM_cons] at h
    cases hfa : f a with
    | none =>
      rw [hfa] at h
      cases h
    | some b =>
      rw [hfa] at h
      cases hml : l.mapM f with
      | none =>
        rw [hml] at h
        cases h
      | some zs =>
        rw [hml] at h
        obtain ⟨hlen, hmem⟩ := mapM_option_spec f l zs hml
        cases h
        refine ⟨by simp [hlen], ?_⟩
        intro y hy
        rcases List.mem_cons.mp hy with hy | hy
        · exact ⟨a, by simp, hy ▸ hfa⟩
        · obtain ⟨x, hx, hfx⟩ := hmem y hy
          exact ⟨x, by simp [hx], hfx⟩

/-- C4: whenever the float-faithful pipeline produces an ASCII art (the
loaded grid having been converted row by row with no `IndexError`), the art
has exactly `height` rows and every row has exactly `width` characters. -/
theorem float_art_dimensions (pixels : List ℕ) (chars : List Char)
    (width height : ℕ) (art : List (List Char))
    (hart : imageToAsciiCoreFloat pixels chars width height = some art) :
    art.length = height ∧ ∀ row ∈ art, row.length = width := by
  obtain ⟨hlen, hmem⟩ := mapM_option_spec _ _ _ hart
  refine ⟨by rw [hlen, List.length_range], ?_⟩
  intro row hrow
  obtain ⟨i, _, hfi⟩ := hmem row hrow
  obtain ⟨hlen', _⟩ := mapM_option_spec _ _ _ hfi
  rw [hlen', List.length_range]

theorem asciiLineFloat_total (pixels : List ℕ) (chars : List Char)
    (width height i : ℕ) (hlen : pixels.length = width * height)
    (hrange : ∀ v ∈ pixels, v ≤ 255) (hchars : chars ≠ [])
    (hb : chars.length ≤ 2 ^ 53 + 1) (hi : i < height) :
    ∃ row, asciiLineFloat pixels chars width i = some row ∧
      row.length = width := by
  have hsome : ∀ j ∈ List.range width,
      ((pixels[i * width + j]?).bind fun v =>
        quantizeCharFloat chars v).isSome = true := by
    intro j hj
    have hj' : j < width := List.mem_range.mp hj
    have hidx : i * width + j < pixels.length := by
      rw [hlen]
      calc i * width + j < i * width + width := by omega
        _ = (i + 1) * width := by ring
        _ ≤ height * width := Nat.mul_le_mul_right _ (by omega)
        _ = width * height := Nat.mul_comm _ _
    rw [List.getElem?_eq_getElem hidx, Option.some_bind]
    exact quantizeCharFloat_isSome chars _ hchars hb
      (hrange _ (List.getElem_mem hidx))
  obtain ⟨row, hrow, hrl, _⟩ := mapM_option_total _ _ hsome
  exact ⟨row, hrow, by rw [hrl, List.length_range]⟩

theorem imageToAsciiCoreFloat_total (pixels : List ℕ) (chars : List Char)
    (width height : ℕ) (hlen : pixels.length = width * height)
    (hrange : ∀ v ∈ pixels, v ≤ 255) (hchars : chars ≠ [])
    (hb : chars.length ≤ 2 ^ 53 + 1) :
    ∃ art, imageToAsciiCoreFloat pixels chars width height = some art := by
  have hsome : ∀ i ∈ List.range height,
      (asciiLineFloat pixels chars width i).isSome = true := by
    intro i hi
    obtain ⟨row, hrow, _⟩ := asciiLineFloat_total pixels chars width height i
      hlen hrange hchars hb (List.mem_range.mp hi)
    rw [hrow]
    rfl
  obtain ⟨art, hart, _, _⟩ := mapM_option_total _ _ hsome
  exact ⟨art, hart⟩

theorem quantizeCharFloat_black : quantizeCharFloat ['@', ' '] 0 = some '@' := by
  rw [quantizeCharFloat, charIndexFloat_zero_sample,
    pyGetChar_of_nonneg _ _ (by norm_num)]
  decide

theorem float_pipeline_black :
    imageToAsciiCoreFloat [0, 0, 0, 0] ("@ ".data) 2 2 =
      some [("@@".data), ("@@".data)] := by
  unfold imageToAsciiCoreFloat asciiLineFloat
  rw [show List.range 2 = [0, 1] from rfl]
  simp only [List.mapM_cons, List.mapM_nil, quantizeCharFloat_black]
  norm_num
  simp [quantizeCharFloat_black]

theorem float_art_dimensions_witness :
    imageToAsciiCoreFloat [0, 0, 0, 0] ("@ ".data) 2 2 =
      some [("@@".data), ("@@".data)] ∧
    ([("@@".data), ("@@".data)] : List (List Char)).length = 2 ∧
    ∀ row ∈ ([("@@".data), ("@@".data)] : List (List Char)),
      row.length = 2 :=
  ⟨float_pipeline_black,
    (float_art_dimensions [0, 0, 0, 0] ("@ ".data) 2 2 _
      float_pipeline_black).1,
    (float_art_dimensions [0, 0, 0, 0] ("@ ".data) 2 2 _
      float_pipeline_black).2⟩

/-! ### Claim C5: exit behavior of the float pipeline -/

theorem asciiLineFloat_empty_palette (pixels : List ℕ) (width i : ℕ)
    (hw : 1 ≤ width) (hpx : i * width < pixels.length) :
    asciiLineFloat pixels [] width i = none := by
  obtain ⟨w', rfl⟩ : ∃ w', width = w' + 1 := ⟨width - 1, by omega⟩
  unfold asciiLineFloat
  rw [List.range_succ_eq_map]
  simp only [List.mapM_cons,
    List.getElem?_eq_getElem (show i * (w' + 1) + 0 < pixels.length by omega),
    Option.some_bind, quantizeCharFloat_nil, Option.none_bind]
  rfl

theorem imageToAsciiCoreFloat_empty_palette (pixels : List ℕ)
    (width height : ℕ) (hw : 1 ≤ width) (hh : 1 ≤ height)
    (hlen : pixels.length = width * height) :
    imageToAsciiCoreFloat pixels [] width height = none := by
  obtain ⟨h', rfl⟩ : ∃ h', height = h' + 1 := ⟨height - 1, by omega⟩
  have h0 : asciiLineFloat pixels [] width 0 = none :=
    asciiLineFloat_empty_palette pixels width 0 hw
      (by rw [hlen]; nlinarith)
  unfold imageToAsciiCoreFloat
  rw [List.range_succ_eq_map]
  simp only [List.mapM_cons, h0, Option.none_bind]
  rfl

/-- C5 counterexample: a run whose image loads successfully (a 1×1 grid)
but whose palette is empty exits with status 1 and writes nothing to
stdout — a successful load alone does not guarantee exit status 0. -/
theorem float_load_ok_exit_nonzero :
    (runMainFloat (some [100]) [] 1 1 false 15 30 20 []).exitCode = 1 ∧
    (runMainFloat (some [100]) [] 1 1 false 15 30 20 []).stdout = [] := by
  have hc := imageToAsciiCoreFloat_empty_palette [100] 1 1 (by decide)
    (by decide) (by decide)
  simp [runMainFloat, image_to_asciiFloat, hc]

/-- C5 (amended): if the image cannot be loaded or decoded, the process
exits with status 1, a diagnostic message is written to stderr and nothing
to stdout; otherwise — provided additionally that the palette is non-empty
and of length at most `2^53 + 1` (every palette that can exist in
practice) — the process exits with status 0, writes the rendered output to
stdout and nothing to stderr. -/
theorem main_exit_behavior_float (loadRes : Option (List ℕ))
    (chars : List Char) (width height : ℕ) (svg : Bool) (x y0 lh : ℤ)
    (msg : List Char) :
    (loadRes = none →
      (runMainFloat loadRes chars width height svg x y0 lh msg).exitCode = 1 ∧
      (runMainFloat loadRes chars width height svg x y0 lh msg).stdout = [] ∧
      (runMainFloat loadRes chars width height svg x y0 lh msg).stderr =
        ("Error processing image: ".data) ++ msg ++ ("\n".data)) ∧
    (∀ pixels, loadRes = some pixels → pixels.length = width * height →
      (∀ v ∈ pixels, v ≤ 255) → chars ≠ [] →
      chars.length ≤ 2 ^ 53 + 1 →
      ∃ art, imageToAsciiCoreFloat pixels chars width height = some art ∧
        (runMainFloat loadRes chars width height svg x y0 lh msg).exitCode = 0 ∧
        (runMainFloat loadRes chars width height svg x y0 lh msg).stderr = [] ∧
        (runMainFloat loadRes chars width height svg x y0 lh msg).stdout =
          (if svg then format_for_svg art x y0 lh ++ ("\n".data)
           else renderText art)) := by
  constructor
  · rintro rfl
    refine ⟨rfl, rfl, rfl⟩
  · rintro pixels rfl hlen hrange hchars hb
    obtain ⟨art, hart⟩ :=
      imageToAsciiCoreFloat_total pixels chars width height hlen hrange
        hchars hb
    refine ⟨art, hart, ?_, ?_, ?_⟩ <;>
      simp [runMainFloat, image_to_asciiFloat, hart] <;> cases svg <;> simp

theorem main_exit_behavior_float_witness :
    ((runMainFloat none ("@ ".data) 2 2 false 15 30 20 ("oops".data)).exitCode
        = 1 ∧
     (runMainFloat none ("@ ".data) 2 2 false 15 30 20 ("oops".data)).stdout
        = [] ∧
     (runMainFloat none ("@ ".data) 2 2 false 15 30 20 ("oops".data)).stderr =
       ("Error processing image: ".data) ++ ("oops".data) ++ ("\n".data)) ∧
    (∃ art, imageToAsciiCoreFloat [0, 255, 0, 255] ("@ ".data) 2 2 =
        some art ∧
      (runMainFloat (some [0, 255, 0, 255]) ("@ ".data) 2 2 false 15 30 20
        []).exitCode = 0 ∧
      (runMainFloat (some [0, 255, 0, 255]) ("@ ".data) 2 2 false 15 30 20
        []).stderr = [] ∧
      (runMainFloat (some [0, 255, 0, 255]) ("@ ".data) 2 2 false 15 30 20
        []).stdout =
        (if false then format_for_svg art 15 30 20 ++ ("\n".data)
         else renderText art)) :=
  ⟨(main_exit_behavior_float none ("@ ".data) 2 2 false 15 30 20
      ("oops".data)).1 rfl,
   (main_exit_behavior_float (some [0, 255, 0, 255]) ("@ ".data) 2 2 false
      15 30 20 []).2 [0, 255, 0, 255] rfl (by decide) (by decide) (by decide)
      (by decide)⟩

end GenerateAscii
